import Mathlib

/-!
# The named-logger registry of `registry.go`

A shallow embedding of `src/registry.go` (package `log`): the process-wide
registry `reg`, its three methods `Loggers`, `GetLogger`, `Register`, and the
three package-level functions `Register`, `Loggers`, `GetLogger`.

* A `*Logger` is a `Ptr`: `none` is Go's `nil`, `some a` the address `a` of a
  Logger object in the heap.  Identity of loggers is equality of pointers.
* The Go map `map[string]*Logger` is a key/value list; reading a missing key
  gives the zero value `nil`, writing replaces the value of an existing key or
  adds a new pair.  Go leaves the iteration order of a map unspecified, so
  statements about `Loggers` are made up to permutation.
* Every method body of `registry` is bracketed by `r.mu.RLock()/RUnlock()` or
  `r.mu.Lock()/Unlock()`; sequentially that bracket has no effect on the
  mapping, and in the concurrent model below it is what makes each method body
  one atomic step.
* A Go run-time panic (nil dereference) is the result `none`.
-/

namespace Log

/-! ## Loggers, pointers and the heap -/

/-- Modelled from the spec: the type `Logger` is declared outside `registry.go`.
The spec (section 3) describes it as an "opaque named entity identified uniquely
by a string name" that "also carries a human-readable description". -/
structure Logger where
  name : String
  description : String
  deriving DecidableEq, Repr

/-- Modelled from the spec: the accessor `Name()` is declared outside
`registry.go`; the spec (section 6) calls it "a stable `Name() → string`
accessor". It reads the name held by the object. -/
def Logger.Name (l : Logger) : String := l.name

/-- Modelled from the spec: the constructor `newLogger` is declared outside
`registry.go`. The spec (section 4.1) says it constructs "a new logger with the
given name and description". The functions below take the constructor as a
parameter; this is the reference instance. -/
def mkLogger (name description : String) : Logger :=
  { name := name, description := description }

/-- A value of Go type `*Logger`: `none` is `nil`, `some a` is the address `a`. -/
abbrev Ptr := Option Nat

/-- The Logger objects allocated so far; the object at address `a` is entry `a`. -/
abbrev Heap := List Logger

/-- Read the object a pointer refers to; `none` for `nil` (and for an address
that was never allocated), where Go panics. -/
def Heap.deref (h : Heap) (p : Ptr) : Option Logger :=
  match p with
  | none => none
  | some a => h[a]?

/-- Allocate a new object (Go `&Logger{...}`): the heap grows by one object and
the address returned is the one no earlier object has. -/
def Heap.alloc (h : Heap) (obj : Logger) : Heap × Ptr :=
  (h ++ [obj], some h.length)

/-! ## The Go map -/

/-- A Go `map[string]*Logger`. -/
abbrev LoggerMap := List (String × Ptr)

/-- Go `m[k]` as an expression: the value stored under `k`, or the zero value
`nil` when `k` is not a key. -/
def mapGet (m : LoggerMap) (k : String) : Ptr :=
  match m with
  | [] => none
  | (k', v) :: rest => if k' = k then v else mapGet rest k

/-- Go `m[k] = v`: replace the value of key `k`, or add the pair. -/
def mapSet (m : LoggerMap) (k : String) (v : Ptr) : LoggerMap :=
  match m with
  | [] => [(k, v)]
  | (k', v') :: rest => if k' = k then (k, v) :: rest else (k', v') :: mapSet rest k v

/-- Go `for _, l := range m { out = append(out, l) }`, in the stored order. -/
def mapValues (m : LoggerMap) : List Ptr := m.map Prod.snd

/-- The keys of the map. -/
def mapKeys (m : LoggerMap) : List String := m.map Prod.fst

/-- Number of entries the map holds for key `k`. -/
def mapCount (m : LoggerMap) (k : String) : Nat := (m.filter (fun e => e.1 = k)).length

/-! ## The registry (`registry.go` lines 44-77) -/

/-- The struct `registry`: the field `loggers`. -/
structure registry where
  loggers : LoggerMap
  deriving DecidableEq, Repr

/-- Method `(r *registry) Loggers()` (lines 51-61): the registry afterwards and
the slice built by ranging over the map. -/
def registry.Loggers (r : registry) : registry × List Ptr :=
  (r, mapValues r.loggers)

/-- Method `(r *registry) GetLogger(name)` (lines 64-69): the registry
afterwards and `r.loggers[name]`. -/
def registry.GetLogger (r : registry) (name : String) : registry × Ptr :=
  (r, mapGet r.loggers name)

/-- Method `(r *registry) Register(logger)` (lines 72-77):
`r.loggers[logger.Name()] = logger`. `logger.Name()` reads the object, so a
pointer without an object panics (`none`). -/
def registry.Register (r : registry) (heap : Heap) (logger : Ptr) : Option registry :=
  match heap.deref logger with
  | none => none
  | some obj => some { loggers := mapSet r.loggers obj.Name logger }

/-- The process state: the heap of Logger objects and the package variable `reg`. -/
structure State where
  heap : Heap
  reg : registry
  deriving DecidableEq, Repr

/-- Line 42: `var reg = &registry{loggers: make(map[string]*Logger)}`. -/
def reg : registry := { loggers := [] }

/-- The state at program start: nothing allocated, `reg` empty. -/
def init : State := { heap := [], reg := reg }

/-! ## The package-level functions (lines 21-39) -/

/-- Function `GetLogger(name)` (line 39). -/
def GetLogger (s : State) (name : String) : State × Ptr :=
  let (r, l) := s.reg.GetLogger name
  ({ s with reg := r }, l)

/-- Function `Loggers()` (line 36). -/
def Loggers (s : State) : State × List Ptr :=
  let (r, ls) := s.reg.Loggers
  ({ s with reg := r }, ls)

/-- Function `Register(name, description)` (lines 23-33), with the constructor
`newLogger` as a parameter. -/
def Register (newLogger : String → String → Logger) (s : State)
    (name description : String) : Option (State × Ptr) :=
  let (r1, l) := s.reg.GetLogger name
  if l ≠ none then
    some ({ s with reg := r1 }, l)
  else
    let (heap1, l1) := s.heap.alloc (newLogger name description)
    match r1.Register heap1 l1 with
    | none => none
    | some r2 => some ({ heap := heap1, reg := r2 }, l1)

/-! ## Sequences of public operations -/

/-- One call of a public operation. -/
inductive Op where
  | register (name description : String)
  | getLogger (name : String)
  | loggers
  deriving DecidableEq, Repr

/-- The state after one public operation (`none`: the call panicked). -/
def Op.apply (newLogger : String → String → Logger) (s : State) : Op → Option State
  | Op.register name description => (Register newLogger s name description).map Prod.fst
  | Op.getLogger name => some (GetLogger s name).1
  | Op.loggers => some (Loggers s).1

/-- Run a finite sequence of public operations. -/
def run (newLogger : String → String → Logger) (s : State) : List Op → Option State
  | [] => some s
  | op :: ops =>
    match op.apply newLogger s with
    | none => none
    | some s1 => run newLogger s1 ops

/-- The names passed to `Register` in a sequence of operations. -/
def registeredNames : List Op → List String
  | [] => []
  | Op.register name _ :: ops => name :: registeredNames ops
  | _ :: ops => registeredNames ops

/-- A state the program can be in after some sequence of public operations. -/
def Reachable (newLogger : String → String → Logger) (s : State) : Prop :=
  ∃ ops : List Op, run newLogger init ops = some s

/-- Register the given (name, description) pairs one after another; the final
state and the loggers returned, in call order. -/
def registerAll (newLogger : String → String → Logger) (s : State) :
    List (String × String) → Option (State × List Ptr)
  | [] => some (s, [])
  | (name, description) :: rest =>
    match Register newLogger s name description with
    | none => none
    | some (s1, l) =>
      match registerAll newLogger s1 rest with
      | none => none
      | some (s2, ls) => some (s2, l :: ls)

/-- The invariant of the sequential program: keys are distinct and every
stored pointer refers to an object whose name is the key. -/
def State.WF (s : State) : Prop :=
  (mapKeys s.reg.loggers).Nodup ∧
  ∀ k p, (k, p) ∈ s.reg.loggers → ∃ obj, s.heap.deref p = some obj ∧ obj.Name = k

/-! ## Concurrent callers of `Register` -/

/-- Where one caller of `Register(name, description)` stands. -/
inductive Caller where
  /-- Before line 24. -/
  | entry
  /-- After the lookup of line 24 found nothing, before line 29. -/
  | missed
  /-- After `l = newLogger(name, description)` (line 29), before line 30. -/
  | built (l : Ptr)
  /-- The call has returned `l` (line 26 or line 32). -/
  | returned (l : Ptr)
  deriving DecidableEq, Repr

/-- Whether the call has returned. -/
def Caller.isReturned : Caller → Bool
  | Caller.returned _ => true
  | _ => false

/-- Several callers of `Register` with the same arguments, sharing one state. -/
structure Conc where
  st : State
  callers : List Caller
  deriving DecidableEq, Repr

/-- Caller `i` takes its next atomic step: the read-locked lookup
`reg.GetLogger(name)` with the test of line 25, the construction of line 29, or
the write-locked insert `reg.Register(l)` followed by the return. A caller that
has returned (or does not exist) takes no step. `none`: the step panicked. -/
def Conc.step (newLogger : String → String → Logger) (name description : String)
    (c : Conc) (i : Nat) : Option Conc :=
  match c.callers[i]? with
  | none => some c
  | some Caller.entry =>
    let (r, l) := c.st.reg.GetLogger name
    if l ≠ none then
      some { st := { c.st with reg := r }, callers := c.callers.set i (Caller.returned l) }
    else
      some { st := { c.st with reg := r }, callers := c.callers.set i Caller.missed }
  | some Caller.missed =>
    let (heap1, l1) := c.st.heap.alloc (newLogger name description)
    some { st := { c.st with heap := heap1 }, callers := c.callers.set i (Caller.built l1) }
  | some (Caller.built l) =>
    match c.st.reg.Register c.st.heap l with
    | none => none
    | some r2 =>
      some { st := { c.st with reg := r2 }, callers := c.callers.set i (Caller.returned l) }
  | some (Caller.returned _) => some c

/-- Run an interleaving: the list says which caller moves next. -/
def Conc.run (newLogger : String → String → Logger) (name description : String)
    (c : Conc) : List Nat → Option Conc
  | [] => some c
  | i :: sched =>
    match c.step newLogger name description i with
    | none => none
    | some c1 => Conc.run newLogger name description c1 sched

/-- All `N` callers are about to call `Register` on state `s`. -/
def Conc.start (s : State) (N : Nat) : Conc :=
  { st := s, callers := List.replicate N Caller.entry }

/-- Every call has returned. -/
def Conc.allReturned (c : Conc) : Bool := c.callers.all Caller.isReturned

/-- How many atomic steps a caller has at most left. -/
def Caller.stepsLeft : Caller → Nat
  | Caller.entry => 3
  | Caller.missed => 2
  | Caller.built _ => 1
  | Caller.returned _ => 0

/-- Steps caller `j` has at most left (`0` when there is no caller `j`). -/
def Conc.left (c : Conc) (j : Nat) : Nat :=
  match c.callers[j]? with
  | none => 0
  | some x => x.stepsLeft

/-- The invariant of concurrent callers registering `name` from a state whose
heap had `base` objects: the state is well formed, every logger a caller has
built and every logger stored under `name` was allocated by a caller with the
constructor, and once a caller has returned `name` is a key of the map. -/
def Conc.Inv (newLogger : String → String → Logger) (name description : String)
    (base : Nat) (c : Conc) : Prop :=
  c.st.WF ∧ base ≤ c.st.heap.length ∧
  (∀ l, Caller.built l ∈ c.callers →
    ∃ a, l = some a ∧ base ≤ a ∧ c.st.heap.deref l = some (newLogger name description)) ∧
  (∀ l, Caller.returned l ∈ c.callers → name ∈ mapKeys c.st.reg.loggers) ∧
  (∀ a, mapGet c.st.reg.loggers name = some a →
    base ≤ a ∧ c.st.heap.deref (some a) = some (newLogger name description))

example : (Register mkLogger init "http" "http access log").map Prod.snd = some (some 0) := by
  decide

example : ((Conc.run mkLogger "shared" "x" (Conc.start init 2) [0, 1, 0, 1, 0, 1]).map
    (fun c => (c.callers, c.st.reg.loggers))) =
    some ([Caller.returned (some 0), Caller.returned (some 1)], [("shared", some 1)]) := by
  decide

/-! ## Facts about the map -/

theorem mapGet_mapSet_same (m : LoggerMap) (k : String) (v : Ptr) :
    mapGet (mapSet m k v) k = v := by
  induction m with
  | nil => simp [mapSet, mapGet]
  | cons e rest ih =>
    obtain ⟨k1, v1⟩ := e
    by_cases h : k1 = k
    · simp [mapSet, mapGet, h]
    · simp [mapSet, mapGet, h, ih]

theorem mapGet_mapSet_ne (m : LoggerMap) (k k2 : String) (v : Ptr) (hne : k2 ≠ k) :
    mapGet (mapSet m k v) k2 = mapGet m k2 := by
  induction m with
  | nil => simp [mapSet, mapGet, Ne.symm hne]
  | cons e rest ih =>
    obtain ⟨k1, v1⟩ := e
    by_cases h : k1 = k
    · subst h
      simp [mapSet, mapGet, Ne.symm hne]
    · by_cases h2 : k1 = k2
      · subst h2
        simp [mapSet, mapGet, h]
      · simp [mapSet, mapGet, h, h2, ih]

theorem mapGet_of_not_mem_keys (m : LoggerMap) (k : String) (h : k ∉ mapKeys m) :
    mapGet m k = none := by
  induction m with
  | nil => rfl
  | cons e rest ih =>
    obtain ⟨k1, v1⟩ := e
    simp only [mapKeys, List.map_cons, List.mem_cons, not_or] at h
    have h1 : ¬ k1 = k := fun hk => h.1 hk.symm
    simp only [mapGet, h1, if_false]
    exact ih h.2

theorem mem_of_mapGet_some (m : LoggerMap) (k : String) (a : Nat)
    (h : mapGet m k = some a) : (k, some a) ∈ m := by
  induction m with
  | nil => simp [mapGet] at h
  | cons e rest ih =>
    obtain ⟨k1, v1⟩ := e
    by_cases h1 : k1 = k
    · simp only [mapGet, h1, if_true] at h
      simp [h1, h]
    · simp only [mapGet, h1, if_false] at h
      exact List.mem_cons_of_mem _ (ih h)

theorem mapGet_of_mem (m : LoggerMap) (k : String) (p : Ptr)
    (hnd : (mapKeys m).Nodup) (h : (k, p) ∈ m) : mapGet m k = p := by
  induction m with
  | nil => simp at h
  | cons e rest ih =>
    obtain ⟨k1, v1⟩ := e
    simp only [mapKeys, List.map_cons, List.nodup_cons] at hnd
    rcases List.mem_cons.1 h with heq | hin
    · cases heq
      simp [mapGet]
    · have hk : k ∈ mapKeys rest := List.mem_map.2 ⟨(k, p), hin, rfl⟩
      have h1 : ¬ k1 = k := fun hk1 => hnd.1 (hk1 ▸ hk)
      simp only [mapGet, h1, if_false]
      exact ih hnd.2 hin

theorem mapSet_of_not_mem_keys (m : LoggerMap) (k : String) (v : Ptr)
    (h : k ∉ mapKeys m) : mapSet m k v = m ++ [(k, v)] := by
  induction m with
  | nil => rfl
  | cons e rest ih =>
    obtain ⟨k1, v1⟩ := e
    simp only [mapKeys, List.map_cons, List.mem_cons, not_or] at h
    have h1 : ¬ k1 = k := fun hk => h.1 hk.symm
    simp only [mapSet, h1, if_false, List.cons_append]
    rw [ih h.2]

theorem mapKeys_mapSet_of_mem (m : LoggerMap) (k : String) (v : Ptr)
    (h : k ∈ mapKeys m) : mapKeys (mapSet m k v) = mapKeys m := by
  induction m with
  | nil => simp [mapKeys] at h
  | cons e rest ih =>
    obtain ⟨k1, v1⟩ := e
    by_cases h1 : k1 = k
    · simp [mapSet, mapKeys, h1]
    · have hin : k ∈ mapKeys rest := by
        simp only [mapKeys, List.map_cons, List.mem_cons] at h
        rcases h with h | h
        · exact absurd h.symm h1
        · exact h
      have := ih hin
      simp only [mapKeys] at this
      simp [mapSet, mapKeys, h1, this]

theorem mapKeys_mapSet_nodup (m : LoggerMap) (k : String) (v : Ptr)
    (hnd : (mapKeys m).Nodup) : (mapKeys (mapSet m k v)).Nodup := by
  by_cases h : k ∈ mapKeys m
  · rw [mapKeys_mapSet_of_mem m k v h]
    exact hnd
  · rw [mapSet_of_not_mem_keys m k v h]
    simp only [mapKeys, List.map_append, List.map_cons, List.map_nil]
    refine List.Nodup.append hnd (List.nodup_singleton _) ?_
    intro x hx hx2
    simp only [List.mem_singleton] at hx2
    subst hx2
    exact h hx

theorem mem_mapSet (m : LoggerMap) (k : String) (v : Ptr) (e : String × Ptr)
    (h : e ∈ mapSet m k v) : e ∈ m ∨ e = (k, v) := by
  induction m with
  | nil =>
    simp only [mapSet, List.mem_singleton] at h
    exact Or.inr h
  | cons e1 rest ih =>
    obtain ⟨k1, v1⟩ := e1
    by_cases h1 : k1 = k
    · simp only [mapSet, h1, if_true, List.mem_cons] at h
      rcases h with h | h
      · exact Or.inr h
      · exact Or.inl (List.mem_cons_of_mem _ h)
    · simp only [mapSet, h1, if_false, List.mem_cons] at h
      rcases h with h | h
      · exact Or.inl (h ▸ List.mem_cons_self _ _)
      · rcases ih h with h2 | h2
        · exact Or.inl (List.mem_cons_of_mem _ h2)
        · exact Or.inr h2

theorem mem_keys_mapSet (m : LoggerMap) (k : String) (v : Ptr) :
    k ∈ mapKeys (mapSet m k v) := by
  induction m with
  | nil => simp [mapSet, mapKeys]
  | cons e rest ih =>
    obtain ⟨k1, v1⟩ := e
    by_cases h1 : k1 = k
    · simp [mapSet, mapKeys, h1]
    · simp only [mapKeys] at ih
      simp [mapSet, mapKeys, h1, ih]

theorem mapCount_eq_one (m : LoggerMap) (k : String)
    (hnd : (mapKeys m).Nodup) (h : k ∈ mapKeys m) : mapCount m k = 1 := by
  induction m with
  | nil => simp [mapKeys] at h
  | cons e rest ih =>
    obtain ⟨k1, v1⟩ := e
    simp only [mapKeys, List.map_cons, List.nodup_cons] at hnd
    by_cases h1 : k1 = k
    · subst h1
      have hnone : rest.filter (fun e => e.1 = k1) = [] := by
        rw [List.filter_eq_nil_iff]
        intro x hx hk
        have hk2 : x.1 = k1 := by simpa using hk
        exact hnd.1 (List.mem_map.2 ⟨x, hx, hk2⟩)
      simp [mapCount, List.filter_cons, hnone]
    · have hin : k ∈ mapKeys rest := by
        simp only [mapKeys, List.map_cons, List.mem_cons] at h
        rcases h with h | h
        · exact absurd h.symm h1
        · exact h
      have := ih hnd.2 hin
      simp only [mapCount] at this
      simp [mapCount, List.filter_cons, h1, this]

/-! ## Facts about the heap -/

theorem deref_alloc_new (h : Heap) (obj : Logger) :
    (h.alloc obj).1.deref (h.alloc obj).2 = some obj := by
  simp [Heap.alloc, Heap.deref]

theorem deref_alloc_old (h : Heap) (obj o : Logger) (p : Ptr)
    (hp : h.deref p = some o) : (h.alloc obj).1.deref p = some o := by
  cases p with
  | none => simp [Heap.deref] at hp
  | some a =>
    simp only [Heap.deref] at hp
    have hlt : a < h.length := by
      by_contra hge
      rw [List.getElem?_eq_none (Nat.le_of_not_lt hge)] at hp
      cases hp
    simp only [Heap.alloc, Heap.deref]
    rw [List.getElem?_append_left hlt]
    exact hp

/-! ## Facts about the sequential operations -/

theorem GetLogger_snd (s : State) (n : String) : (GetLogger s n).2 = mapGet s.reg.loggers n := rfl

theorem Register_found (nl : String → String → Logger) (s : State) (n d : String) (a : Nat)
    (h : mapGet s.reg.loggers n = some a) : Register nl s n d = some (s, some a) := by
  simp [Register, registry.GetLogger, h]

theorem Register_missing (nl : String → String → Logger) (s : State) (n d : String)
    (h : mapGet s.reg.loggers n = none) :
    Register nl s n d =
      some ({ heap := s.heap ++ [nl n d],
              reg := { loggers := mapSet s.reg.loggers (nl n d).Name (some s.heap.length) } },
            some s.heap.length) := by
  simp [Register, registry.GetLogger, h, registry.Register, Heap.alloc, Heap.deref]

theorem Register_total (nl : String → String → Logger) (s : State) (n d : String) :
    ∃ s1 a, Register nl s n d = some (s1, some a) := by
  cases h : mapGet s.reg.loggers n with
  | none => exact ⟨_, _, Register_missing nl s n d h⟩
  | some a => exact ⟨_, _, Register_found nl s n d a h⟩

theorem WF_init : init.WF := by
  constructor
  · simp [init, reg, mapKeys]
  · intro k p h
    simp [init, reg] at h

theorem WF_insert (s : State) (obj : Logger) (hwf : s.WF) :
    State.WF { heap := s.heap ++ [obj],
               reg := { loggers := mapSet s.reg.loggers obj.Name (some s.heap.length) } } := by
  obtain ⟨hnd, hent⟩ := hwf
  constructor
  · exact mapKeys_mapSet_nodup _ _ _ hnd
  · intro k p hmem
    rcases mem_mapSet _ _ _ _ hmem with hold | hnew
    · obtain ⟨o, ho, hk⟩ := hent k p hold
      exact ⟨o, deref_alloc_old s.heap obj o p ho, hk⟩
    · cases hnew
      exact ⟨obj, deref_alloc_new s.heap obj, rfl⟩

theorem WF_Register (nl : String → String → Logger) (s s1 : State) (n d : String) (l : Ptr)
    (hwf : s.WF) (h : Register nl s n d = some (s1, l)) : s1.WF := by
  cases hg : mapGet s.reg.loggers n with
  | some a =>
    rw [Register_found nl s n d a hg] at h
    cases h
    exact hwf
  | none =>
    rw [Register_missing nl s n d hg] at h
    cases h
    exact WF_insert s (nl n d) hwf

theorem WF_apply (nl : String → String → Logger) (s s1 : State) (op : Op)
    (hwf : s.WF) (h : op.apply nl s = some s1) : s1.WF := by
  cases op with
  | register n d =>
    obtain ⟨s2, a, hreg⟩ := Register_total nl s n d
    simp only [Op.apply, hreg] at h
    cases h
    exact WF_Register nl s s2 n d (some a) hwf hreg
  | getLogger n =>
    simp only [Op.apply, Option.some.injEq] at h
    subst h
    exact hwf
  | loggers =>
    simp only [Op.apply, Option.some.injEq] at h
    subst h
    exact hwf

theorem WF_run (nl : String → String → Logger) (ops : List Op) (s s1 : State)
    (hwf : s.WF) (h : run nl s ops = some s1) : s1.WF := by
  induction ops generalizing s with
  | nil =>
    simp only [run, Option.some.injEq] at h
    subst h
    exact hwf
  | cons op ops ih =>
    simp only [run] at h
    cases hop : op.apply nl s with
    | none => simp [hop] at h
    | some s2 =>
      simp only [hop] at h
      exact ih s2 (WF_apply nl s s2 op hwf hop) h

theorem WF_of_Reachable (nl : String → String → Logger) (s : State)
    (hr : Reachable nl s) : s.WF := by
  obtain ⟨ops, h⟩ := hr
  exact WF_run nl ops init s WF_init h

theorem apply_total (nl : String → String → Logger) (s : State) (op : Op) :
    ∃ s1, op.apply nl s = some s1 := by
  cases op with
  | register n d =>
    obtain ⟨s1, a, h⟩ := Register_total nl s n d
    exact ⟨s1, by simp [Op.apply, h]⟩
  | getLogger n => exact ⟨_, rfl⟩
  | loggers => exact ⟨_, rfl⟩

theorem run_total (nl : String → String → Logger) (ops : List Op) (s : State) :
    ∃ s1, run nl s ops = some s1 := by
  induction ops generalizing s with
  | nil => exact ⟨s, rfl⟩
  | cons op ops ih =>
    obtain ⟨s2, h2⟩ := apply_total nl s op
    obtain ⟨s1, h1⟩ := ih s2
    exact ⟨s1, by simp [run, h2, h1]⟩

/-- A stored logger of a well-formed state refers to an object named as its key. -/
theorem WF_deref (s : State) (n : String) (a : Nat) (hwf : s.WF)
    (h : mapGet s.reg.loggers n = some a) :
    ∃ obj, s.heap.deref (some a) = some obj ∧ obj.Name = n :=
  hwf.2 n (some a) (mem_of_mapGet_some _ _ _ h)

/-- In a well-formed state a name without a logger is not a key of the map. -/
theorem WF_not_mem_keys (s : State) (n : String) (hwf : s.WF)
    (h : mapGet s.reg.loggers n = none) : n ∉ mapKeys s.reg.loggers := by
  intro hin
  obtain ⟨⟨k, p⟩, hmem, hk⟩ := List.mem_map.1 hin
  simp only at hk
  subst hk
  obtain ⟨o, ho, _⟩ := hwf.2 k p hmem
  have hp := mapGet_of_mem _ k p hwf.1 hmem
  rw [h] at hp
  subst hp
  simp [Heap.deref] at ho

/-- After `Register(n, d)` returned `a`, the map holds `a` under `n`, provided
the constructor names its logger `n`. -/
theorem mapGet_after_Register (nl : String → String → Logger)
    (hName : ∀ n d, (nl n d).Name = n) (s s1 : State) (n d : String) (a : Nat)
    (h : Register nl s n d = some (s1, some a)) : mapGet s1.reg.loggers n = some a := by
  cases hg : mapGet s.reg.loggers n with
  | some b =>
    rw [Register_found nl s n d b hg] at h
    cases h
    exact hg
  | none =>
    rw [Register_missing nl s n d hg] at h
    cases h
    simp only [hName]
    exact mapGet_mapSet_same _ _ _

theorem mem_keys_of_mapSet (m : LoggerMap) (k k0 : String) (v : Ptr)
    (h : k ∈ mapKeys (mapSet m k0 v)) : k ∈ mapKeys m ∨ k = k0 := by
  obtain ⟨e, hmem, hk⟩ := List.mem_map.1 h
  rcases mem_mapSet m k0 v e hmem with hold | hnew
  · exact Or.inl (List.mem_map.2 ⟨e, hold, hk⟩)
  · subst hnew
    exact Or.inr hk.symm

/-- `Register(n, d)` adds no key other than `n`. -/
theorem keys_Register (nl : String → String → Logger) (hName : ∀ n d, (nl n d).Name = n)
    (s s1 : State) (n d : String) (l : Ptr) (h : Register nl s n d = some (s1, l))
    (k : String) (hk : k ∈ mapKeys s1.reg.loggers) : k ∈ mapKeys s.reg.loggers ∨ k = n := by
  cases hg : mapGet s.reg.loggers n with
  | some b =>
    rw [Register_found nl s n d b hg] at h
    cases h
    exact Or.inl hk
  | none =>
    rw [Register_missing nl s n d hg] at h
    cases h
    simp only [hName] at hk
    exact mem_keys_of_mapSet _ _ _ _ hk

/-- Every key of the map after a run was a key before or was passed to `Register`. -/
theorem keys_run (nl : String → String → Logger) (hName : ∀ n d, (nl n d).Name = n)
    (ops : List Op) (s s1 : State) (h : run nl s ops = some s1)
    (k : String) (hk : k ∈ mapKeys s1.reg.loggers) :
    k ∈ mapKeys s.reg.loggers ∨ k ∈ registeredNames ops := by
  induction ops generalizing s with
  | nil =>
    simp only [run, Option.some.injEq] at h
    subst h
    exact Or.inl hk
  | cons op ops ih =>
    simp only [run] at h
    cases op with
    | register n d =>
      obtain ⟨s2, a, hreg⟩ := Register_total nl s n d
      simp only [Op.apply, hreg, Option.map_some'] at h
      rcases ih s2 h with h2 | h2
      · rcases keys_Register nl hName s s2 n d (some a) hreg k h2 with h3 | h3
        · exact Or.inl h3
        · exact Or.inr (by simp [registeredNames, h3])
      · exact Or.inr (by simp [registeredNames, h2])
    | getLogger n =>
      simp only [Op.apply] at h
      rcases ih _ h with h2 | h2
      · exact Or.inl h2
      · exact Or.inr (by simpa [registeredNames] using h2)
    | loggers =>
      simp only [Op.apply] at h
      rcases ih _ h with h2 | h2
      · exact Or.inl h2
      · exact Or.inr (by simpa [registeredNames] using h2)

/-- One public operation keeps a stored logger and its object. -/
theorem stored_apply (nl : String → String → Logger) (hName : ∀ n d, (nl n d).Name = n)
    (s s1 : State) (op : Op) (h : op.apply nl s = some s1) (n : String) (a : Nat)
    (obj : Logger) (hget : mapGet s.reg.loggers n = some a)
    (hobj : s.heap.deref (some a) = some obj) :
    mapGet s1.reg.loggers n = some a ∧ s1.heap.deref (some a) = some obj := by
  cases op with
  | register m d =>
    cases hg : mapGet s.reg.loggers m with
    | some b =>
      simp only [Op.apply, Register_found nl s m d b hg] at h
      cases h
      exact ⟨hget, hobj⟩
    | none =>
      simp only [Op.apply, Register_missing nl s m d hg] at h
      cases h
      have hne : n ≠ m := by
        intro hnm
        subst hnm
        rw [hget] at hg
        cases hg
      refine ⟨?_, deref_alloc_old s.heap (nl m d) obj (some a) hobj⟩
      simp only [hName]
      rw [mapGet_mapSet_ne _ _ _ _ hne]
      exact hget
  | getLogger m =>
    simp only [Op.apply] at h
    cases h
    exact ⟨hget, hobj⟩
  | loggers =>
    simp only [Op.apply] at h
    cases h
    exact ⟨hget, hobj⟩

/-- A run of public operations keeps a stored logger and its object. -/
theorem stored_run (nl : String → String → Logger) (hName : ∀ n d, (nl n d).Name = n)
    (ops : List Op) (s s1 : State) (h : run nl s ops = some s1) (n : String) (a : Nat)
    (obj : Logger) (hget : mapGet s.reg.loggers n = some a)
    (hobj : s.heap.deref (some a) = some obj) :
    mapGet s1.reg.loggers n = some a ∧ s1.heap.deref (some a) = some obj := by
  induction ops generalizing s with
  | nil =>
    simp only [run, Option.some.injEq] at h
    subst h
    exact ⟨hget, hobj⟩
  | cons op ops ih =>
    simp only [run] at h
    cases hop : op.apply nl s with
    | none => simp [hop] at h
    | some s2 =>
      simp only [hop] at h
      obtain ⟨hget2, hobj2⟩ := stored_apply nl hName s s2 op hop n a obj hget hobj
      exact ih s2 h hget2 hobj2

/-- Looking up each key of a zipped map, in order, gives back the values. -/
theorem map_mapGet_zip (ns : List String) (ls : List Ptr) (hnd : ns.Nodup)
    (hlen : ls.length = ns.length) : ns.map (mapGet (List.zip ns ls)) = ls := by
  induction ns generalizing ls with
  | nil =>
    cases ls with
    | nil => rfl
    | cons l ls => simp at hlen
  | cons n ns ih =>
    cases ls with
    | nil => simp at hlen
    | cons l ls =>
      simp only [List.length_cons, Nat.add_right_cancel_iff] at hlen
      simp only [List.nodup_cons] at hnd
      have hmap : List.map (mapGet ((n, l) :: List.zip ns ls)) ns
          = List.map (mapGet (List.zip ns ls)) ns := by
        apply List.map_congr_left
        intro x hx
        have hne : ¬ n = x := fun h => hnd.1 (h ▸ hx)
        simp [mapGet, hne]
      show mapGet ((n, l) :: List.zip ns ls) n
          :: List.map (mapGet ((n, l) :: List.zip ns ls)) ns = l :: ls
      rw [hmap, ih ls hnd.2 hlen]
      simp [mapGet]

/-- Registering new, pairwise distinct names one after another adds one entry
per name, each holding a pointer that was not allocated before. -/
theorem registerAll_spec (nl : String → String → Logger) (hName : ∀ n d, (nl n d).Name = n)
    (nds : List (String × String)) (s : State)
    (hnd : (nds.map Prod.fst).Nodup)
    (hdisj : ∀ x ∈ nds.map Prod.fst, x ∉ mapKeys s.reg.loggers) :
    ∃ s1 ls, registerAll nl s nds = some (s1, ls) ∧
      s1.reg.loggers = s.reg.loggers ++ List.zip (nds.map Prod.fst) ls ∧
      ls.length = nds.length ∧
      (∀ l ∈ ls, ∃ a, l = some a ∧ s.heap.length ≤ a) ∧ ls.Nodup := by
  induction nds generalizing s with
  | nil => exact ⟨s, [], rfl, by simp, rfl, by simp, List.nodup_nil⟩
  | cons nd rest ih =>
    obtain ⟨n, d⟩ := nd
    simp only [List.map_cons, List.nodup_cons] at hnd
    have hn : n ∉ mapKeys s.reg.loggers := hdisj n (by simp)
    have hg : mapGet s.reg.loggers n = none := mapGet_of_not_mem_keys _ _ hn
    have hreg := Register_missing nl s n d hg
    rw [hName, mapSet_of_not_mem_keys _ _ _ hn] at hreg
    have hdisj2 : ∀ x ∈ rest.map Prod.fst,
        x ∉ mapKeys (s.reg.loggers ++ [(n, some s.heap.length)]) := by
      intro x hx hmem
      simp only [mapKeys, List.map_append, List.map_cons, List.map_nil, List.mem_append,
        List.mem_singleton] at hmem
      rcases hmem with hmem | hmem
      · exact hdisj x (by simp only [List.map_cons, List.mem_cons]; exact Or.inr hx) hmem
      · subst hmem
        exact hnd.1 hx
    obtain ⟨s1, ls, hrest, hmap, hlen, hbound, hnodup⟩ :=
      ih ⟨s.heap ++ [nl n d], ⟨s.reg.loggers ++ [(n, some s.heap.length)]⟩⟩ hnd.2 hdisj2
    refine ⟨s1, some s.heap.length :: ls, ?_, ?_, ?_, ?_, ?_⟩
    · simp [registerAll, hreg, hrest]
    · rw [hmap]
      simp
    · simp [hlen]
    · intro l hl
      rcases List.mem_cons.1 hl with h | h
      · exact ⟨s.heap.length, h, le_refl _⟩
      · obtain ⟨a, ha, hle⟩ := hbound l h
        refine ⟨a, ha, ?_⟩
        simp only [List.length_append, List.length_singleton] at hle
        omega
    · refine List.nodup_cons.2 ⟨?_, hnodup⟩
      intro hmem
      obtain ⟨a, ha, hle⟩ := hbound _ hmem
      simp only [List.length_append, List.length_singleton, Option.some.injEq] at hle ha
      omega

/-! ## Facts about concurrent callers -/

theorem mem_keys_of_mapGet_some (m : LoggerMap) (k : String) (a : Nat)
    (h : mapGet m k = some a) : k ∈ mapKeys m :=
  List.mem_map.2 ⟨(k, some a), mem_of_mapGet_some m k a h, rfl⟩

/-- Under the invariant every atomic step succeeds and keeps the invariant. -/
theorem Conc.step_inv (nl : String → String → Logger) (hName : ∀ n d, (nl n d).Name = n)
    (name desc : String) (base : Nat) (c : Conc) (i : Nat)
    (hinv : Conc.Inv nl name desc base c) :
    ∃ c1, c.step nl name desc i = some c1 ∧ Conc.Inv nl name desc base c1 ∧
      c1.callers.length = c.callers.length := by
  obtain ⟨hwf, hbase, hbuilt, hret, hmap⟩ := hinv
  cases hci : c.callers[i]? with
  | none => exact ⟨c, by simp [Conc.step, hci], ⟨hwf, hbase, hbuilt, hret, hmap⟩, rfl⟩
  | some x =>
    cases x with
    | entry =>
      cases hg : mapGet c.st.reg.loggers name with
      | none =>
        refine ⟨{ st := c.st, callers := c.callers.set i Caller.missed }, ?_, ?_, by simp⟩
        · simp [Conc.step, hci, registry.GetLogger, hg]
        · refine ⟨hwf, hbase, ?_, ?_, hmap⟩
          · intro l hl
            rcases List.mem_or_eq_of_mem_set hl with h | h
            · exact hbuilt l h
            · cases h
          · intro l hl
            rcases List.mem_or_eq_of_mem_set hl with h | h
            · exact hret l h
            · cases h
      | some a =>
        refine ⟨{ st := c.st, callers := c.callers.set i (Caller.returned (some a)) },
          ?_, ?_, by simp⟩
        · simp [Conc.step, hci, registry.GetLogger, hg]
        · refine ⟨hwf, hbase, ?_, ?_, hmap⟩
          · intro l hl
            rcases List.mem_or_eq_of_mem_set hl with h | h
            · exact hbuilt l h
            · cases h
          · intro l hl
            exact mem_keys_of_mapGet_some _ _ _ hg
    | missed =>
      refine ⟨{ st := { heap := c.st.heap ++ [nl name desc], reg := c.st.reg },
                callers := c.callers.set i (Caller.built (some c.st.heap.length)) },
        ?_, ?_, by simp⟩
      · simp [Conc.step, hci, Heap.alloc]
      · refine ⟨⟨hwf.1, ?_⟩, ?_, ?_, ?_, ?_⟩
        · intro k p hmem
          obtain ⟨o, ho, hk⟩ := hwf.2 k p hmem
          exact ⟨o, deref_alloc_old c.st.heap (nl name desc) o p ho, hk⟩
        · simp only [List.length_append, List.length_singleton]
          omega
        · intro l hl
          rcases List.mem_or_eq_of_mem_set hl with h | h
          · obtain ⟨a, ha, hle, hobj⟩ := hbuilt l h
            exact ⟨a, ha, hle, deref_alloc_old c.st.heap (nl name desc) _ l hobj⟩
          · cases h
            exact ⟨c.st.heap.length, rfl, hbase, deref_alloc_new c.st.heap (nl name desc)⟩
        · intro l hl
          rcases List.mem_or_eq_of_mem_set hl with h | h
          · exact hret l h
          · cases h
        · intro a ha
          obtain ⟨hle, hobj⟩ := hmap a ha
          exact ⟨hle, deref_alloc_old c.st.heap (nl name desc) _ (some a) hobj⟩
    | built l =>
      obtain ⟨a, hl, hle, hobj⟩ := hbuilt l (List.getElem?_mem hci)
      refine ⟨{ st := { heap := c.st.heap, reg := { loggers := mapSet c.st.reg.loggers name l } },
                callers := c.callers.set i (Caller.returned l) }, ?_, ?_, by simp⟩
      · simp [Conc.step, hci, registry.Register, hobj, hName]
      · refine ⟨⟨mapKeys_mapSet_nodup _ _ _ hwf.1, ?_⟩, hbase, ?_, ?_, ?_⟩
        · intro k p hmem
          rcases mem_mapSet _ _ _ _ hmem with hold | hnew
          · exact hwf.2 k p hold
          · cases hnew
            exact ⟨nl name desc, hobj, hName name desc⟩
        · intro l2 hl2
          rcases List.mem_or_eq_of_mem_set hl2 with h | h
          · exact hbuilt l2 h
          · cases h
        · intro l2 _
          exact mem_keys_mapSet _ _ _
        · intro a2 ha2
          have hsame : mapGet (mapSet c.st.reg.loggers name l) name = l :=
            mapGet_mapSet_same _ _ _
          rw [hsame, hl] at ha2
          cases ha2
          rw [hl] at hobj
          exact ⟨hle, hobj⟩
    | returned l =>
      exact ⟨c, by simp [Conc.step, hci], ⟨hwf, hbase, hbuilt, hret, hmap⟩, rfl⟩

/-- Under the invariant every interleaving runs to its end and keeps the invariant. -/
theorem Conc.run_inv (nl : String → String → Logger) (hName : ∀ n d, (nl n d).Name = n)
    (name desc : String) (base : Nat) (sched : List Nat) (c : Conc)
    (hinv : Conc.Inv nl name desc base c) :
    ∃ c1, Conc.run nl name desc c sched = some c1 ∧ Conc.Inv nl name desc base c1 ∧
      c1.callers.length = c.callers.length := by
  induction sched generalizing c with
  | nil => exact ⟨c, rfl, hinv, rfl⟩
  | cons i sched ih =>
    obtain ⟨c1, hstep, hinv1, hlen1⟩ := Conc.step_inv nl hName name desc base c i hinv
    obtain ⟨c2, hrun, hinv2, hlen2⟩ := ih c1 hinv1
    exact ⟨c2, by simp [Conc.run, hstep, hrun], hinv2, hlen2.trans hlen1⟩

/-- The invariant holds when the callers start on a well-formed state without
a logger under `name`. -/
theorem Conc.start_inv (nl : String → String → Logger) (name desc : String) (s : State)
    (N : Nat) (hwf : s.WF) (habs : mapGet s.reg.loggers name = none) :
    Conc.Inv nl name desc s.heap.length (Conc.start s N) := by
  refine ⟨hwf, le_refl _, ?_, ?_, ?_⟩
  · intro l hl
    have := List.eq_of_mem_replicate hl
    cases this
  · intro l hl
    have := List.eq_of_mem_replicate hl
    cases this
  · intro a ha
    simp only [Conc.start] at ha
    rw [habs] at ha
    cases ha

theorem Conc.left_set (cs : List Caller) (st st1 : State) (i j : Nat) (x y : Caller)
    (hci : cs[i]? = some x) (hxy : y.stepsLeft ≤ x.stepsLeft - 1) :
    Conc.left ⟨st1, cs.set i y⟩ j ≤ Conc.left ⟨st, cs⟩ j ∧
    (j = i → Conc.left ⟨st1, cs.set i y⟩ j ≤ Conc.left ⟨st, cs⟩ j - 1) := by
  have hlt : i < cs.length := by
    by_contra hge
    rw [List.getElem?_eq_none (Nat.le_of_not_lt hge)] at hci
    cases hci
  by_cases hji : j = i
  · subst hji
    simp only [Conc.left, List.getElem?_set_self hlt, hci]
    exact ⟨le_trans hxy (Nat.sub_le _ _), fun _ => hxy⟩
  · have hne : i ≠ j := fun h => hji h.symm
    simp only [Conc.left, List.getElem?_set_ne hne]
    exact ⟨le_refl _, fun h => absurd h hji⟩

/-- A step never gives a caller more steps to do, and takes one from the
caller that moved unless it had returned. -/
theorem Conc.left_step (nl : String → String → Logger) (name desc : String)
    (c c1 : Conc) (i : Nat) (h : c.step nl name desc i = some c1) (j : Nat) :
    c1.left j ≤ c.left j ∧ (j = i → c1.left j ≤ c.left j - 1) := by
  cases hci : c.callers[i]? with
  | none =>
    simp only [Conc.step, hci, Option.some.injEq] at h
    subst h
    refine ⟨le_refl _, ?_⟩
    intro hji
    subst hji
    simp [Conc.left, hci]
  | some x =>
    cases x with
    | entry =>
      simp only [Conc.step, hci, registry.GetLogger] at h
      split at h
      · cases h
        exact Conc.left_set c.callers c.st _ i j _ _ hci (by simp [Caller.stepsLeft])
      · cases h
        exact Conc.left_set c.callers c.st _ i j _ _ hci (by simp [Caller.stepsLeft])
    | missed =>
      simp only [Conc.step, hci, Heap.alloc] at h
      cases h
      exact Conc.left_set c.callers c.st _ i j _ _ hci (by simp [Caller.stepsLeft])
    | built l =>
      simp only [Conc.step, hci] at h
      split at h
      · cases h
      · cases h
        exact Conc.left_set c.callers c.st _ i j _ _ hci (by simp [Caller.stepsLeft])
    | returned l =>
      simp only [Conc.step, hci, Option.some.injEq] at h
      subst h
      refine ⟨le_refl _, ?_⟩
      intro hji
      subst hji
      simp [Conc.left, hci, Caller.stepsLeft]

/-- After an interleaving, a caller has at most as many steps left as it had
before minus the number of times it was scheduled. -/
theorem Conc.left_run (nl : String → String → Logger) (name desc : String)
    (sched : List Nat) (c c1 : Conc) (h : Conc.run nl name desc c sched = some c1) (j : Nat) :
    c1.left j ≤ c.left j - sched.count j := by
  induction sched generalizing c with
  | nil =>
    simp only [Conc.run, Option.some.injEq] at h
    subst h
    simp
  | cons i sched ih =>
    simp only [Conc.run] at h
    cases hstep : c.step nl name desc i with
    | none => simp [hstep] at h
    | some c2 =>
      simp only [hstep] at h
      have h1 := ih c2 h
      have h2 := Conc.left_step nl name desc c c2 i hstep j
      by_cases hji : j = i
      · subst hji
        have h3 := h2.2 rfl
        rw [List.count_cons_self]
        omega
      · rw [List.count_cons_of_ne hji]
        have h3 := h2.1
        omega

theorem Conc.left_le (c : Conc) (j : Nat) : c.left j ≤ 3 := by
  unfold Conc.left
  cases c.callers[j]? with
  | none => simp
  | some x => cases x <;> simp [Caller.stepsLeft]

/-- When no caller has a step left, every call has returned. -/
theorem Conc.allReturned_of_left (c : Conc) (h : ∀ j, j < c.callers.length → c.left j = 0) :
    c.allReturned = true := by
  simp only [Conc.allReturned, List.all_eq_true]
  intro x hx
  obtain ⟨j, hj⟩ := List.mem_iff_getElem?.1 hx
  have hlt : j < c.callers.length := by
    by_contra hge
    rw [List.getElem?_eq_none (Nat.le_of_not_lt hge)] at hj
    cases hj
  have h0 := h j hlt
  simp only [Conc.left, hj] at h0
  cases x <;> simp [Caller.stepsLeft] at h0
  rfl

/-- One caller running alone takes the three steps of the sequential
`Register`: same final state, same returned logger. -/
theorem Conc.solo_eq_Register (nl : String → String → Logger) (s : State)
    (name desc : String) :
    (Conc.run nl name desc (Conc.start s 1) [0, 0, 0]).map (fun c => (c.st, c.callers)) =
      (Register nl s name desc).map (fun r => (r.1, [Caller.returned r.2])) := by
  cases hg : mapGet s.reg.loggers name with
  | none =>
    rw [Register_missing nl s name desc hg]
    simp [Conc.run, Conc.step, Conc.start, registry.GetLogger, hg, Heap.alloc,
      registry.Register, Heap.deref]
  | some a =>
    rw [Register_found nl s name desc a hg]
    simp [Conc.run, Conc.step, Conc.start, registry.GetLogger, hg]

/-! ## Facts about the keys along a run -/

theorem mem_keys_mapSet_of_mem (m : LoggerMap) (k k0 : String) (v : Ptr)
    (h : k ∈ mapKeys m) : k ∈ mapKeys (mapSet m k0 v) := by
  by_cases h0 : k0 ∈ mapKeys m
  · rw [mapKeys_mapSet_of_mem m k0 v h0]
    exact h
  · rw [mapSet_of_not_mem_keys m k0 v h0]
    simp only [mapKeys, List.map_append, List.mem_append]
    exact Or.inl h

/-- `Register(n, d)` removes no key and makes `n` a key. -/
theorem keys_after_Register (nl : String → String → Logger)
    (hName : ∀ n d, (nl n d).Name = n) (s s1 : State) (n d : String) (a : Nat)
    (h : Register nl s n d = some (s1, some a)) (k : String)
    (hk : k ∈ mapKeys s.reg.loggers ∨ k = n) : k ∈ mapKeys s1.reg.loggers := by
  rcases hk with hk | hk
  · cases hg : mapGet s.reg.loggers n with
    | some b =>
      rw [Register_found nl s n d b hg] at h
      cases h
      exact hk
    | none =>
      rw [Register_missing nl s n d hg] at h
      cases h
      exact mem_keys_mapSet_of_mem _ _ _ _ hk
  · subst hk
    exact mem_keys_of_mapGet_some _ _ a (mapGet_after_Register nl hName s s1 k d a h)

/-- Every key before a run and every name passed to `Register` in it is a key
after the run. -/
theorem registered_mem_keys (nl : String → String → Logger)
    (hName : ∀ n d, (nl n d).Name = n) (ops : List Op) (s s1 : State)
    (h : run nl s ops = some s1) (k : String)
    (hk : k ∈ mapKeys s.reg.loggers ∨ k ∈ registeredNames ops) :
    k ∈ mapKeys s1.reg.loggers := by
  induction ops generalizing s with
  | nil =>
    simp only [run, Option.some.injEq] at h
    subst h
    rcases hk with hk | hk
    · exact hk
    · simp [registeredNames] at hk
  | cons op ops ih =>
    simp only [run] at h
    cases op with
    | register n d =>
      obtain ⟨s2, a, hreg⟩ := Register_total nl s n d
      simp only [Op.apply, hreg, Option.map_some'] at h
      apply ih s2 h
      rcases hk with hk | hk
      · exact Or.inl (keys_after_Register nl hName s s2 n d a hreg k (Or.inl hk))
      · simp only [registeredNames, List.mem_cons] at hk
        rcases hk with hk | hk
        · exact Or.inl (keys_after_Register nl hName s s2 n d a hreg k (Or.inr hk))
        · exact Or.inr hk
    | getLogger n =>
      simp only [Op.apply] at h
      apply ih _ h
      rcases hk with hk | hk
      · exact Or.inl hk
      · exact Or.inr (by simpa [registeredNames] using hk)
    | loggers =>
      simp only [Op.apply] at h
      apply ih _ h
      rcases hk with hk | hk
      · exact Or.inl hk
      · exact Or.inr (by simpa [registeredNames] using hk)

/-- The slice of `Loggers()` has one element per key. -/
theorem Loggers_length (s : State) : (Loggers s).2.length = (mapKeys s.reg.loggers).length := by
  simp [Loggers, registry.Loggers, mapValues, mapKeys]

/-! ## Facts used for the race of two callers -/

theorem deref_two (h : Heap) (o1 o2 : Logger) :
    Heap.deref (h ++ [o1] ++ [o2]) (some h.length) = some o1 ∧
    Heap.deref (h ++ [o1] ++ [o2]) (some (h.length + 1)) = some o2 := by
  constructor
  · exact deref_alloc_old (h ++ [o1]) o2 o1 (some h.length) (deref_alloc_new h o1)
  · have h2 := deref_alloc_new (h ++ [o1]) o2
    simpa [Heap.alloc] using h2

theorem Conc.run_single (nl : String → String → Logger) (name desc : String) (c : Conc)
    (i : Nat) : Conc.run nl name desc c [i] = c.step nl name desc i := by
  simp only [Conc.run]
  cases c.step nl name desc i <;> rfl

theorem Conc.run_append (nl : String → String → Logger) (name desc : String)
    (sched1 sched2 : List Nat) (c c1 : Conc)
    (h : Conc.run nl name desc c sched1 = some c1) :
    Conc.run nl name desc c (sched1 ++ sched2) = Conc.run nl name desc c1 sched2 := by
  induction sched1 generalizing c with
  | nil =>
    simp only [Conc.run, Option.some.injEq] at h
    subst h
    rfl
  | cons i sched1 ih =>
    simp only [Conc.run, List.cons_append] at h ⊢
    cases hstep : c.step nl name desc i with
    | none => simp [hstep] at h
    | some c2 =>
      simp only [hstep] at h ⊢
      exact ih c2 h

/-- The insert step of a caller that holds a pointer to an object. -/
theorem Conc.step_built (nl : String → String → Logger) (name desc : String) (c : Conc)
    (i : Nat) (l : Ptr) (obj : Logger) (hci : c.callers[i]? = some (Caller.built l))
    (hobj : c.st.heap.deref l = some obj) :
    c.step nl name desc i =
      some { st := { heap := c.st.heap, reg := { loggers := mapSet c.st.reg.loggers obj.Name l } },
             callers := c.callers.set i (Caller.returned l) } := by
  simp [Conc.step, hci, registry.Register, hobj]

/-! ## The claims -/

/-- C1 (idempotence of Register): for every state reachable from the empty
registry through the public operations, every name `n` and all descriptions
`d1`, `d2`, both `Register(n, d1)` and the following `Register(n, d2)` return,
the second call returns the same pointer `a` as the first, it leaves the state
as the first call left it, and the logger stored under `n` after either call is
`a` with the same object `obj` (so the same description); when `n` was new,
that object is the one built from `d1`. The constructor is assumed to name its
logger as asked. -/
theorem Register_idempotent (newLogger : String → String → Logger)
    (hName : ∀ n d, (newLogger n d).Name = n)
    (s : State) (hr : Reachable newLogger s) (n d1 d2 : String) :
    ∃ s1 s2 a obj,
      Register newLogger s n d1 = some (s1, some a) ∧
      Register newLogger s1 n d2 = some (s2, some a) ∧
      s2 = s1 ∧
      (GetLogger s1 n).2 = some a ∧ s1.heap.deref (some a) = some obj ∧
      (GetLogger s2 n).2 = some a ∧ s2.heap.deref (some a) = some obj ∧
      ((GetLogger s n).2 = none → obj = newLogger n d1) := by
  obtain ⟨s1, a, h1⟩ := Register_total newLogger s n d1
  have hget := mapGet_after_Register newLogger hName s s1 n d1 a h1
  have hwf1 : s1.WF := WF_Register newLogger s s1 n d1 (some a) (WF_of_Reachable newLogger s hr) h1
  obtain ⟨obj, hobj, _⟩ := WF_deref s1 n a hwf1 hget
  refine ⟨s1, s1, a, obj, h1, Register_found newLogger s1 n d2 a hget, rfl, hget, hobj,
    hget, hobj, ?_⟩
  intro habs
  rw [GetLogger_snd] at habs
  rw [Register_missing newLogger s n d1 habs] at h1
  cases h1
  simp [Heap.deref] at hobj
  exact hobj.symm

/-- Witness of C1 on the spec's scenario 1. -/
theorem Register_idempotent_witness :
    Reachable mkLogger init ∧
    ∃ s1 s2 a obj,
      Register mkLogger init "http" "http access log" = some (s1, some a) ∧
      Register mkLogger s1 "http" "different desc" = some (s2, some a) ∧
      s2 = s1 ∧
      (GetLogger s1 "http").2 = some a ∧ s1.heap.deref (some a) = some obj ∧
      (GetLogger s2 "http").2 = some a ∧ s2.heap.deref (some a) = some obj ∧
      ((GetLogger init "http").2 = none → obj = mkLogger "http" "http access log") :=
  ⟨⟨[], rfl⟩,
    Register_idempotent mkLogger (fun _ _ => rfl) init ⟨[], rfl⟩
      "http" "http access log" "different desc"⟩

/-- C2 (lookup consistency): for every state (reachable or not), every name `n`
and description `d`, `Register(n, d)` returns a pointer `a`, and `GetLogger(n)`
evaluated right after it returns that same pointer, whether `n` was registered
before or not. The constructor is assumed to name its logger as asked. -/
theorem GetLogger_after_Register (newLogger : String → String → Logger)
    (hName : ∀ n d, (newLogger n d).Name = n) (s : State) (n d : String) :
    ∃ s1 a, Register newLogger s n d = some (s1, some a) ∧ (GetLogger s1 n).2 = some a := by
  obtain ⟨s1, a, h1⟩ := Register_total newLogger s n d
  exact ⟨s1, a, h1, mapGet_after_Register newLogger hName s s1 n d a h1⟩

/-- Witness of C2. -/
theorem GetLogger_after_Register_witness :
    ∃ s1 a, Register mkLogger init "http" "http access log" = some (s1, some a) ∧
      (GetLogger s1 "http").2 = some a :=
  GetLogger_after_Register mkLogger (fun _ _ => rfl) init "http" "http access log"

/-- C5 (Register of an unregistered name creates and stores): in every
reachable state where `GetLogger(n)` is absent, `Register(n, d)` returns a
pointer `a` that referred to no object before, refers afterwards to the object
`newLogger n d` whose name is `n` and whose description is `d`, and is the one
entry stored under `n` in the resulting registry. The constructor is assumed to
set the name and the description it is given. -/
theorem Register_creates_and_stores (newLogger : String → String → Logger)
    (hName : ∀ n d, (newLogger n d).Name = n)
    (hDesc : ∀ n d, (newLogger n d).description = d)
    (s : State) (hr : Reachable newLogger s) (n d : String)
    (habs : (GetLogger s n).2 = none) :
    ∃ s1 a obj, Register newLogger s n d = some (s1, some a) ∧
      s.heap.deref (some a) = none ∧
      s1.heap.deref (some a) = some obj ∧ obj = newLogger n d ∧
      obj.Name = n ∧ obj.description = d ∧
      (n, some a) ∈ s1.reg.loggers ∧ mapCount s1.reg.loggers n = 1 ∧
      (GetLogger s1 n).2 = some a := by
  rw [GetLogger_snd] at habs
  have h1 := Register_missing newLogger s n d habs
  have hget := mapGet_after_Register newLogger hName s _ n d _ h1
  have hwf1 : State.WF _ :=
    WF_Register newLogger s _ n d _ (WF_of_Reachable newLogger s hr) h1
  refine ⟨_, _, newLogger n d, h1, ?_, ?_, rfl, hName n d, hDesc n d,
    mem_of_mapGet_some _ _ _ hget, ?_, hget⟩
  · simp [Heap.deref]
  · simp [Heap.deref]
  · refine mapCount_eq_one _ _ hwf1.1 ?_
    exact List.mem_map.2 ⟨(n, some s.heap.length), mem_of_mapGet_some _ _ _ hget, rfl⟩

/-- Witness of C5: a second name on a registry that already holds one. -/
theorem Register_creates_and_stores_witness :
    ∃ s1 a obj,
      Register mkLogger ⟨[mkLogger "http" "h"], ⟨[("http", some 0)]⟩⟩ "db" "database log"
        = some (s1, some a) ∧
      Heap.deref [mkLogger "http" "h"] (some a) = none ∧
      s1.heap.deref (some a) = some obj ∧ obj = mkLogger "db" "database log" ∧
      obj.Name = "db" ∧ obj.description = "database log" ∧
      ("db", some a) ∈ s1.reg.loggers ∧ mapCount s1.reg.loggers "db" = 1 ∧
      (GetLogger s1 "db").2 = some a :=
  Register_creates_and_stores mkLogger (fun _ _ => rfl) (fun _ _ => rfl)
    ⟨[mkLogger "http" "h"], ⟨[("http", some 0)]⟩⟩ ⟨[Op.register "http" "h"], by decide⟩
    "db" "database log" (by decide)

/-- C6 (Register of an already registered name changes nothing): in every
state where `GetLogger(n)` is a logger `a`, `Register(n, d)` returns `a` and the
state after the call is the state before it: no object was constructed, the map
has the same entries, and `Loggers()` yields the same slice. -/
theorem Register_existing_changes_nothing (newLogger : String → String → Logger)
    (s : State) (n d : String) (a : Nat) (h : (GetLogger s n).2 = some a) :
    ∃ s1, Register newLogger s n d = some (s1, some a) ∧
      s1.heap = s.heap ∧ s1.reg.loggers = s.reg.loggers ∧
      (∀ k, (GetLogger s1 k).2 = (GetLogger s k).2) ∧
      (Loggers s1).2 = (Loggers s).2 :=
  ⟨s, Register_found newLogger s n d a h, rfl, rfl, fun _ => rfl, rfl⟩

/-- Witness of C6. -/
theorem Register_existing_changes_nothing_witness :
    ∃ s1, Register mkLogger ⟨[mkLogger "http" "h"], ⟨[("http", some 0)]⟩⟩ "http" "other"
        = some (s1, some 0) ∧
      s1.heap = [mkLogger "http" "h"] ∧ s1.reg.loggers = [("http", some 0)] ∧
      (∀ k, (GetLogger s1 k).2
        = (GetLogger ⟨[mkLogger "http" "h"], ⟨[("http", some 0)]⟩⟩ k).2) ∧
      (Loggers s1).2 = (Loggers ⟨[mkLogger "http" "h"], ⟨[("http", some 0)]⟩⟩).2 :=
  Register_existing_changes_nothing mkLogger ⟨[mkLogger "http" "h"], ⟨[("http", some 0)]⟩⟩
    "http" "other" 0 (by decide)

/-- C8 (GetLogger and Loggers are read-only): for every state and every name,
the state after `GetLogger(n)` and the state after `Loggers()` are the state
before the call, for the package functions and for the registry methods. -/
theorem GetLogger_Loggers_read_only (s : State) (n : String) :
    (GetLogger s n).1 = s ∧ (Loggers s).1 = s ∧
    (s.reg.GetLogger n).1 = s.reg ∧ s.reg.Loggers.1 = s.reg :=
  ⟨rfl, rfl, rfl, rfl⟩

/-- C9 (no failure, the empty name is not rejected): for every state, name and
description, `Register` returns a non-nil pointer and does not panic; and on a
registry where `GetLogger("")` is absent, `Register("", d)` stores its result
under the key `""` and the following `GetLogger("")` returns it. The
constructor is assumed to name its logger as asked; the pointer it yields is
a fresh address, hence non-nil. -/
theorem Register_never_fails (newLogger : String → String → Logger)
    (hName : ∀ n d, (newLogger n d).Name = n) (s : State) (n d : String) :
    (∃ s1 a, Register newLogger s n d = some (s1, some a)) ∧
    ((GetLogger s "").2 = none →
      ∃ s1 a, Register newLogger s "" d = some (s1, some a) ∧
        ("", some a) ∈ s1.reg.loggers ∧ (GetLogger s1 "").2 = some a) := by
  refine ⟨Register_total newLogger s n d, ?_⟩
  intro _
  obtain ⟨s1, a, h1⟩ := Register_total newLogger s "" d
  have hget := mapGet_after_Register newLogger hName s s1 "" d a h1
  exact ⟨s1, a, h1, mem_of_mapGet_some _ _ _ hget, hget⟩

/-- Witness of C9: the empty name on the initial registry. -/
theorem Register_never_fails_witness :
    ∃ s1 a, Register mkLogger init "" "x" = some (s1, some a) ∧
      ("", some a) ∈ s1.reg.loggers ∧ (GetLogger s1 "").2 = some a :=
  (Register_never_fails mkLogger (fun _ _ => rfl) init "" "x").2 rfl

/-- C3 (absence): after any finite sequence of public operations run from the
initial empty registry (the run never panics), `GetLogger(n)` is `nil` for
every name `n` that no `Register` call of the sequence was given; the empty
sequence gives the initial registry, and a sequence registering other names a
populated one. The constructor is assumed to name its logger as asked. -/
theorem GetLogger_absent_of_never_registered (newLogger : String → String → Logger)
    (hName : ∀ n d, (newLogger n d).Name = n) (ops : List Op) (n : String)
    (hn : n ∉ registeredNames ops) :
    ∃ s, run newLogger init ops = some s ∧ (GetLogger s n).2 = none := by
  obtain ⟨s, hs⟩ := run_total newLogger ops init
  refine ⟨s, hs, ?_⟩
  rw [GetLogger_snd]
  apply mapGet_of_not_mem_keys
  intro hk
  rcases keys_run newLogger hName ops init s hs n hk with h | h
  · simp [init, reg, mapKeys] at h
  · exact hn h

/-- Witness of C3 on the spec's scenario 2: a populated registry. -/
theorem GetLogger_absent_of_never_registered_witness :
    "nonexistent" ∉ registeredNames
      [Op.register "http" "http access log", Op.getLogger "nonexistent", Op.loggers,
        Op.register "db" "database"] ∧
    ∃ s, run mkLogger init
      [Op.register "http" "http access log", Op.getLogger "nonexistent", Op.loggers,
        Op.register "db" "database"] = some s ∧ (GetLogger s "nonexistent").2 = none :=
  ⟨by decide,
    GetLogger_absent_of_never_registered mkLogger (fun _ _ => rfl)
      [Op.register "http" "http access log", Op.getLogger "nonexistent", Op.loggers,
        Op.register "db" "database"] "nonexistent" (by decide)⟩

/-- C7 (write-once per key): along every run of public operations from the
empty registry, once a logger `a` is stored under `n` (state `s1`), every
further sequence of operations runs without panic and ends in a state where
`a` is still the logger under `n`, refers to the same object, and is the only
entry for `n`. The constructor is assumed to name its logger as asked. -/
theorem stored_logger_never_replaced (newLogger : String → String → Logger)
    (hName : ∀ n d, (newLogger n d).Name = n) (ops1 ops2 : List Op) (s1 : State)
    (n : String) (a : Nat) (h1 : run newLogger init ops1 = some s1)
    (hst : (GetLogger s1 n).2 = some a) :
    ∃ obj s2, s1.heap.deref (some a) = some obj ∧ run newLogger s1 ops2 = some s2 ∧
      (GetLogger s2 n).2 = some a ∧ s2.heap.deref (some a) = some obj ∧
      mapCount s1.reg.loggers n = 1 ∧ mapCount s2.reg.loggers n = 1 := by
  rw [GetLogger_snd] at hst
  have hwf1 : s1.WF := WF_run newLogger ops1 init s1 WF_init h1
  obtain ⟨obj, hobj, _⟩ := WF_deref s1 n a hwf1 hst
  obtain ⟨s2, h2⟩ := run_total newLogger ops2 s1
  have hwf2 : s2.WF := WF_run newLogger ops2 s1 s2 hwf1 h2
  obtain ⟨hget2, hobj2⟩ := stored_run newLogger hName ops2 s1 s2 h2 n a obj hst hobj
  refine ⟨obj, s2, hobj, h2, hget2, hobj2, ?_, ?_⟩
  · exact mapCount_eq_one _ _ hwf1.1
      (List.mem_map.2 ⟨(n, some a), mem_of_mapGet_some _ _ _ hst, rfl⟩)
  · exact mapCount_eq_one _ _ hwf2.1
      (List.mem_map.2 ⟨(n, some a), mem_of_mapGet_some _ _ _ hget2, rfl⟩)

/-- Witness of C7: `http` is registered, then registered again with another
description, looked up, listed, and another name is registered. -/
theorem stored_logger_never_replaced_witness :
    ∃ obj s2,
      Heap.deref [mkLogger "http" "http access log"] (some 0) = some obj ∧
      run mkLogger ⟨[mkLogger "http" "http access log"], ⟨[("http", some 0)]⟩⟩
        [Op.register "http" "different desc", Op.getLogger "http", Op.loggers,
          Op.register "db" "database"] = some s2 ∧
      (GetLogger s2 "http").2 = some 0 ∧ s2.heap.deref (some 0) = some obj ∧
      mapCount [("http", some 0)] "http" = 1 ∧ mapCount s2.reg.loggers "http" = 1 :=
  stored_logger_never_replaced mkLogger (fun _ _ => rfl)
    [Op.register "http" "http access log"]
    [Op.register "http" "different desc", Op.getLogger "http", Op.loggers,
      Op.register "db" "database"]
    ⟨[mkLogger "http" "http access log"], ⟨[("http", some 0)]⟩⟩ "http" 0
    (by decide) (by decide)

/-- C4 (enumeration completeness): when pairwise distinct names are registered
one after another on the initial empty registry, every call returns, and the
slice `Loggers()` then yields is a permutation of the list `ls` of returned
loggers: it has the same elements (nothing missing, nothing extra), no logger
twice, as many elements as names, each non-nil, and the logger returned for a
name is the logger stored under that name. Being a statement up to
permutation, it holds for whatever order the map is ranged over. The
constructor is assumed to name its logger as asked. -/
theorem Loggers_complete (newLogger : String → String → Logger)
    (hName : ∀ n d, (newLogger n d).Name = n) (nds : List (String × String))
    (hnd : (nds.map Prod.fst).Nodup) :
    ∃ s ls, registerAll newLogger init nds = some (s, ls) ∧
      (Loggers s).2.Perm ls ∧ (∀ p, p ∈ (Loggers s).2 ↔ p ∈ ls) ∧
      (Loggers s).2.Nodup ∧ (Loggers s).2.length = nds.length ∧
      (∀ p ∈ (Loggers s).2, p ≠ none) ∧
      ls = nds.map (fun nd => (GetLogger s nd.1).2) := by
  obtain ⟨s, ls, hrun, hmap, hlen, hbound, hnodup⟩ :=
    registerAll_spec newLogger hName nds init hnd (by simp [init, reg, mapKeys])
  have hmap2 : s.reg.loggers = List.zip (nds.map Prod.fst) ls := by
    rw [hmap]
    simp [init, reg]
  have hvals : (Loggers s).2 = ls := by
    show mapValues s.reg.loggers = ls
    rw [hmap2, mapValues]
    exact List.map_snd_zip _ _ (by simp [hlen])
  refine ⟨s, ls, hrun, ?_, ?_, ?_, ?_, ?_, ?_⟩
  · rw [hvals]
  · intro p
    rw [hvals]
  · rw [hvals]
    exact hnodup
  · rw [hvals]
    exact hlen
  · rw [hvals]
    intro p hp hnone
    obtain ⟨a, ha, _⟩ := hbound p hp
    rw [hnone] at ha
    cases ha
  · have h := map_mapGet_zip (nds.map Prod.fst) ls hnd (by simp [hlen])
    rw [← hmap2, List.map_map] at h
    exact h.symm

/-- Witness of C4 on the spec's three names. -/
theorem Loggers_complete_witness :
    ([("a", "first"), ("b", "second"), ("c", "third")].map Prod.fst).Nodup ∧
    ∃ s ls, registerAll mkLogger init [("a", "first"), ("b", "second"), ("c", "third")]
        = some (s, ls) ∧
      (Loggers s).2.Perm ls ∧ (∀ p, p ∈ (Loggers s).2 ↔ p ∈ ls) ∧
      (Loggers s).2.Nodup ∧
      (Loggers s).2.length = [("a", "first"), ("b", "second"), ("c", "third")].length ∧
      (∀ p ∈ (Loggers s).2, p ≠ none) ∧
      ls = [("a", "first"), ("b", "second"), ("c", "third")].map
        (fun nd => (GetLogger s nd.1).2) :=
  ⟨by decide,
    Loggers_complete mkLogger (fun _ _ => rfl)
      [("a", "first"), ("b", "second"), ("c", "third")] (by decide)⟩

/-- C10 (concurrent first registration ends with a single stored entry): let
`N ≥ 1` callers run `Register(name, description)` concurrently from a reachable
state without a logger under `name`. Every interleaving of their atomic steps
(lookup, construction, insert) runs without panic; once every caller has been
scheduled three times all calls have returned; and whenever all calls have
returned, `GetLogger(name)` is a logger that one of the callers constructed and
the map holds exactly one entry for `name`. The constructor is assumed to name
its logger as asked. -/
theorem concurrent_first_registration_single_entry (newLogger : String → String → Logger)
    (hName : ∀ n d, (newLogger n d).Name = n)
    (s0 : State) (hr : Reachable newLogger s0) (name description : String)
    (habs : (GetLogger s0 name).2 = none) (N : Nat) (hN : 1 ≤ N) (sched : List Nat) :
    ∃ c, Conc.run newLogger name description (Conc.start s0 N) sched = some c ∧
      ((∀ i, i < N → 3 ≤ sched.count i) → c.allReturned = true) ∧
      (c.allReturned = true →
        (∃ a, (GetLogger c.st name).2 = some a ∧ s0.heap.deref (some a) = none ∧
          c.st.heap.deref (some a) = some (newLogger name description)) ∧
        mapCount c.st.reg.loggers name = 1) := by
  rw [GetLogger_snd] at habs
  have hwf0 := WF_of_Reachable newLogger s0 hr
  obtain ⟨c, hrun, ⟨hwf, _, _, hret, hmap⟩, hlen⟩ :=
    Conc.run_inv newLogger hName name description s0.heap.length sched (Conc.start s0 N)
      (Conc.start_inv newLogger name description s0 N hwf0 habs)
  have hlenN : c.callers.length = N := by
    rw [hlen]
    simp [Conc.start]
  refine ⟨c, hrun, ?_, ?_⟩
  · intro hfair
    apply Conc.allReturned_of_left
    intro j hj
    have h1 := Conc.left_run newLogger name description sched (Conc.start s0 N) c hrun j
    have h2 := Conc.left_le (Conc.start s0 N) j
    have h3 := hfair j (hlenN ▸ hj)
    omega
  · intro hall
    simp only [Conc.allReturned, List.all_eq_true] at hall
    have hpos : 0 < c.callers.length := by omega
    obtain ⟨x, hx⟩ : ∃ x, x ∈ c.callers := ⟨c.callers.get ⟨0, hpos⟩, List.get_mem _ _ _⟩
    have hxr := hall x hx
    have hkey : name ∈ mapKeys c.st.reg.loggers := by
      cases x with
      | returned l => exact hret l hx
      | entry => simp [Caller.isReturned] at hxr
      | missed => simp [Caller.isReturned] at hxr
      | built l => simp [Caller.isReturned] at hxr
    refine ⟨?_, mapCount_eq_one _ _ hwf.1 hkey⟩
    obtain ⟨⟨k, p⟩, hmem, hk⟩ := List.mem_map.1 hkey
    simp only at hk
    subst hk
    obtain ⟨o, ho, _⟩ := hwf.2 k p hmem
    cases p with
    | none => simp [Heap.deref] at ho
    | some a =>
      have hget := mapGet_of_mem _ k (some a) hwf.1 hmem
      obtain ⟨hle, hobj⟩ := hmap a hget
      refine ⟨a, hget, ?_, hobj⟩
      simp only [Heap.deref]
      exact List.getElem?_eq_none hle

/-- Witness of C10: two callers whose lookups both run before either insert. -/
theorem concurrent_first_registration_single_entry_witness :
    ∃ c, Conc.run mkLogger "shared" "x" (Conc.start init 2) [0, 1, 0, 1, 0, 1] = some c ∧
      c.allReturned = true ∧
      (∃ a, (GetLogger c.st "shared").2 = some a ∧ init.heap.deref (some a) = none ∧
        c.st.heap.deref (some a) = some (mkLogger "shared" "x")) ∧
      mapCount c.st.reg.loggers "shared" = 1 :=
  match concurrent_first_registration_single_entry mkLogger (fun _ _ => rfl) init ⟨[], rfl⟩
      "shared" "x" rfl 2 (by decide) [0, 1, 0, 1, 0, 1] with
  | ⟨c, hrun, hall, hfin⟩ => ⟨c, hrun, hall (by decide), hfin (hall (by decide))⟩

/-- C12 (the insert method keys by the logger's own name and overwrites): for
every registry `r` and every pointer `l` to a Logger object `obj`,
`r.Register(l)` returns, afterwards the value under `obj.Name()` is `l` whatever
was stored there before, the value under every other key is what it was, and
(keys being distinct) there is exactly one entry for `obj.Name()`. -/
theorem registry_Register_overwrites (r : registry) (heap : Heap) (l : Ptr) (obj : Logger)
    (hl : heap.deref l = some obj) :
    ∃ r1, r.Register heap l = some r1 ∧
      (r1.GetLogger obj.Name).2 = l ∧
      (∀ k, k ≠ obj.Name → (r1.GetLogger k).2 = (r.GetLogger k).2) ∧
      ((mapKeys r.loggers).Nodup → mapCount r1.loggers obj.Name = 1) := by
  refine ⟨{ loggers := mapSet r.loggers obj.Name l }, ?_, ?_, ?_, ?_⟩
  · simp [registry.Register, hl]
  · exact mapGet_mapSet_same _ _ _
  · intro k hk
    exact mapGet_mapSet_ne _ _ _ _ hk
  · intro hnd
    exact mapCount_eq_one _ _ (mapKeys_mapSet_nodup _ _ _ hnd) (mem_keys_mapSet _ _ _)

/-- Witness of C12: a second object named `http` replaces the stored one, and
the entry of `db` stays. -/
theorem registry_Register_overwrites_witness :
    ∃ r1, registry.Register ⟨[("http", some 0), ("db", some 1)]⟩
        [mkLogger "http" "a", mkLogger "db" "b", mkLogger "http" "c"] (some 2) = some r1 ∧
      (r1.GetLogger (mkLogger "http" "c").Name).2 = some 2 ∧
      (∀ k, k ≠ (mkLogger "http" "c").Name →
        (r1.GetLogger k).2 = (registry.GetLogger ⟨[("http", some 0), ("db", some 1)]⟩ k).2) ∧
      ((mapKeys [("http", some 0), ("db", some 1)]).Nodup →
        mapCount r1.loggers (mkLogger "http" "c").Name = 1) :=
  registry_Register_overwrites ⟨[("http", some 0), ("db", some 1)]⟩
    [mkLogger "http" "a", mkLogger "db" "b", mkLogger "http" "c"] (some 2)
    (mkLogger "http" "c") rfl

/-- C13 (Register does not disturb other names): for every reachable state,
all names `m ≠ n` and every description `d`, `Register(m, d)` returns, and
`GetLogger(n)` afterwards is what it was before: the same pointer referring to
the same object, or `nil`. The constructor is assumed to name its logger as
asked. -/
theorem Register_other_names_untouched (newLogger : String → String → Logger)
    (hName : ∀ n d, (newLogger n d).Name = n)
    (s : State) (hr : Reachable newLogger s) (m n d : String) (hne : m ≠ n) :
    ∃ s1 a, Register newLogger s m d = some (s1, some a) ∧
      (GetLogger s1 n).2 = (GetLogger s n).2 ∧
      s1.heap.deref (GetLogger s1 n).2 = s.heap.deref (GetLogger s n).2 := by
  have hwf := WF_of_Reachable newLogger s hr
  cases hg : mapGet s.reg.loggers m with
  | some b => exact ⟨s, b, Register_found newLogger s m d b hg, rfl, rfl⟩
  | none =>
    refine ⟨_, _, Register_missing newLogger s m d hg, ?_, ?_⟩
    · simp only [GetLogger_snd, hName]
      exact mapGet_mapSet_ne _ _ _ _ (Ne.symm hne)
    · simp only [GetLogger_snd, hName]
      rw [mapGet_mapSet_ne _ _ _ _ (Ne.symm hne)]
      cases hn : mapGet s.reg.loggers n with
      | none => simp [Heap.deref]
      | some a =>
        obtain ⟨obj, hobj, _⟩ := WF_deref s n a hwf hn
        rw [hobj]
        exact deref_alloc_old s.heap (newLogger m d) obj (some a) hobj

/-- Witness of C13: registering `db` on a registry that holds `http`. -/
theorem Register_other_names_untouched_witness :
    ∃ s1 a,
      Register mkLogger ⟨[mkLogger "http" "h"], ⟨[("http", some 0)]⟩⟩ "db" "database"
        = some (s1, some a) ∧
      (GetLogger s1 "http").2
        = (GetLogger ⟨[mkLogger "http" "h"], ⟨[("http", some 0)]⟩⟩ "http").2 ∧
      s1.heap.deref (GetLogger s1 "http").2
        = Heap.deref [mkLogger "http" "h"]
            (GetLogger ⟨[mkLogger "http" "h"], ⟨[("http", some 0)]⟩⟩ "http").2 :=
  Register_other_names_untouched mkLogger (fun _ _ => rfl)
    ⟨[mkLogger "http" "h"], ⟨[("http", some 0)]⟩⟩ ⟨[Op.register "http" "h"], by decide⟩
    "db" "http" "database" (by decide)

/-- C14 (size accounting of the enumeration): `Loggers()` on the initial
registry is empty; in every reachable state `Register(n, d)` returns and makes
`Loggers()` one longer when `GetLogger(n)` was `nil` before the call and leaves
its length as it was otherwise; and after any run of public operations from the
initial registry the length of `Loggers()` is the number of distinct names
passed to `Register`. The constructor is assumed to name its logger as asked. -/
theorem Loggers_length_accounting (newLogger : String → String → Logger)
    (hName : ∀ n d, (newLogger n d).Name = n) :
    (Loggers init).2 = [] ∧
    (∀ s, Reachable newLogger s → ∀ n d,
      ∃ s1 a, Register newLogger s n d = some (s1, some a) ∧
        ((GetLogger s n).2 = none → (Loggers s1).2.length = (Loggers s).2.length + 1) ∧
        ((GetLogger s n).2 ≠ none → (Loggers s1).2.length = (Loggers s).2.length)) ∧
    (∀ ops s, run newLogger init ops = some s →
      (Loggers s).2.length = (registeredNames ops).dedup.length) := by
  refine ⟨rfl, ?_, ?_⟩
  · intro s hr n d
    have hwf := WF_of_Reachable newLogger s hr
    cases hg : mapGet s.reg.loggers n with
    | some b =>
      refine ⟨s, b, Register_found newLogger s n d b hg, ?_, fun _ => rfl⟩
      intro habs
      rw [GetLogger_snd, hg] at habs
      cases habs
    | none =>
      refine ⟨_, _, Register_missing newLogger s n d hg, ?_, ?_⟩
      · intro _
        rw [Loggers_length, Loggers_length, hName,
          mapSet_of_not_mem_keys _ _ _ (WF_not_mem_keys s n hwf hg)]
        simp [mapKeys]
      · intro hpres
        rw [GetLogger_snd, hg] at hpres
        exact absurd rfl hpres
  · intro ops s hrun
    have hwf := WF_run newLogger ops init s WF_init hrun
    rw [Loggers_length, ← List.toFinset_card_of_nodup hwf.1, ← List.card_toFinset]
    congr 1
    apply Finset.ext
    intro k
    simp only [List.mem_toFinset]
    constructor
    · intro hk
      rcases keys_run newLogger hName ops init s hrun k hk with h | h
      · simp [init, reg, mapKeys] at h
      · exact h
    · intro hk
      exact registered_mem_keys newLogger hName ops init s hrun k (Or.inr hk)

/-- Witness of C14: the first registration on the initial registry, and a run
with two distinct names among three `Register` calls. -/
theorem Loggers_length_accounting_witness :
    (Loggers init).2 = [] ∧
    (∃ s1 a, Register mkLogger init "http" "h" = some (s1, some a) ∧
      ((GetLogger init "http").2 = none →
        (Loggers s1).2.length = (Loggers init).2.length + 1) ∧
      ((GetLogger init "http").2 ≠ none →
        (Loggers s1).2.length = (Loggers init).2.length)) ∧
    (Loggers ⟨[mkLogger "http" "h", mkLogger "db" "d"],
        ⟨[("http", some 0), ("db", some 1)]⟩⟩).2.length
      = (registeredNames [Op.register "http" "h", Op.loggers, Op.register "db" "d",
          Op.getLogger "x", Op.register "http" "again"]).dedup.length :=
  ⟨(Loggers_length_accounting mkLogger (fun _ _ => rfl)).1,
    (Loggers_length_accounting mkLogger (fun _ _ => rfl)).2.1 init ⟨[], rfl⟩ "http" "h",
    (Loggers_length_accounting mkLogger (fun _ _ => rfl)).2.2
      [Op.register "http" "h", Op.loggers, Op.register "db" "d", Op.getLogger "x",
        Op.register "http" "again"]
      ⟨[mkLogger "http" "h", mkLogger "db" "d"], ⟨[("http", some 0), ("db", some 1)]⟩⟩
      (by decide)⟩

/-- C15 (key/name agreement): in every state reachable from the empty registry
through the public operations, every stored pointer is non-nil and refers to an
object whose `Name()` is the key it is stored under; so the loggers that
`Loggers()` returns are non-nil with pairwise distinct names, and `GetLogger(n)`,
when not `nil`, is a logger whose `Name()` is `n`. -/
theorem stored_key_is_Name (newLogger : String → String → Logger)
    (s : State) (hr : Reachable newLogger s) :
    (∀ k p, (k, p) ∈ s.reg.loggers →
      ∃ a obj, p = some a ∧ s.heap.deref p = some obj ∧ obj.Name = k) ∧
    (∀ p ∈ (Loggers s).2, ∃ a obj, p = some a ∧ s.heap.deref p = some obj) ∧
    ((Loggers s).2.map (fun p => (s.heap.deref p).map Logger.Name)).Nodup ∧
    (∀ n a, (GetLogger s n).2 = some a →
      ∃ obj, s.heap.deref (some a) = some obj ∧ obj.Name = n) := by
  have hwf := WF_of_Reachable newLogger s hr
  have hent : ∀ k p, (k, p) ∈ s.reg.loggers →
      ∃ a obj, p = some a ∧ s.heap.deref p = some obj ∧ obj.Name = k := by
    intro k p hmem
    obtain ⟨obj, hobj, hk⟩ := hwf.2 k p hmem
    cases p with
    | none => simp [Heap.deref] at hobj
    | some a => exact ⟨a, obj, rfl, hobj, hk⟩
  refine ⟨hent, ?_, ?_, ?_⟩
  · intro p hp
    obtain ⟨⟨k, p1⟩, hmem, hp1⟩ := List.mem_map.1 hp
    simp only at hp1
    subst hp1
    obtain ⟨a, obj, ha, hobj, _⟩ := hent k p1 hmem
    exact ⟨a, obj, ha, hobj⟩
  · have hmap : (Loggers s).2.map (fun p => (s.heap.deref p).map Logger.Name)
        = (mapKeys s.reg.loggers).map some := by
      simp only [Loggers, registry.Loggers, mapValues, mapKeys, List.map_map]
      apply List.map_congr_left
      intro e he
      obtain ⟨k, p⟩ := e
      obtain ⟨obj, hobj, hk⟩ := hwf.2 k p he
      simp [hobj, hk]
    rw [hmap]
    exact List.Nodup.map (Option.some_injective _) hwf.1
  · intro n a hget
    exact WF_deref s n a hwf hget

/-- Witness of C15: the registry after registering `http` and `db`. -/
theorem stored_key_is_Name_witness :
    (∀ k p, (k, p) ∈ [("http", some 0), ("db", some 1)] →
      ∃ a obj, p = some a ∧
        Heap.deref [mkLogger "http" "h", mkLogger "db" "d"] p = some obj ∧ obj.Name = k) ∧
    (∀ p ∈ (Loggers ⟨[mkLogger "http" "h", mkLogger "db" "d"],
        ⟨[("http", some 0), ("db", some 1)]⟩⟩).2,
      ∃ a obj, p = some a ∧
        Heap.deref [mkLogger "http" "h", mkLogger "db" "d"] p = some obj) ∧
    ((Loggers ⟨[mkLogger "http" "h", mkLogger "db" "d"],
        ⟨[("http", some 0), ("db", some 1)]⟩⟩).2.map
      (fun p => (Heap.deref [mkLogger "http" "h", mkLogger "db" "d"] p).map
        Logger.Name)).Nodup ∧
    (∀ n a, (GetLogger ⟨[mkLogger "http" "h", mkLogger "db" "d"],
        ⟨[("http", some 0), ("db", some 1)]⟩⟩ n).2 = some a →
      ∃ obj, Heap.deref [mkLogger "http" "h", mkLogger "db" "d"] (some a) = some obj ∧
        obj.Name = n) :=
  stored_key_is_Name mkLogger
    ⟨[mkLogger "http" "h", mkLogger "db" "d"], ⟨[("http", some 0), ("db", some 1)]⟩⟩
    ⟨[Op.register "http" "h", Op.register "db" "d"], by decide⟩

/-- C11 (the check-then-insert race, last writer wins): two callers run
`Register(name, description)` on a state where `GetLogger(name)` is `nil`. In
the interleaving where both lookups run before either insert, both callers find
`name` absent (`c1`), each constructs its own logger (`c2`), caller 0 inserts
and returns `l0`, which is then the stored entry (`c3`), caller 1 inserts and
returns `l1` (`c4`); `l0` and `l1` are different pointers to objects built by
the constructor, and the entry stored under `name` at the end is `l1`, the
logger of the caller whose insert ran second, in a single entry. The
constructor is assumed to name its logger as asked. -/
theorem race_last_writer_wins (newLogger : String → String → Logger)
    (hName : ∀ n d, (newLogger n d).Name = n)
    (s0 : State) (name description : String) (habs : (GetLogger s0 name).2 = none) :
    ∃ c1 c2 c3 c4 l0 l1,
      Conc.run newLogger name description (Conc.start s0 2) [0, 1] = some c1 ∧
      c1.callers = [Caller.missed, Caller.missed] ∧
      Conc.run newLogger name description c1 [0, 1] = some c2 ∧
      c2.callers = [Caller.built l0, Caller.built l1] ∧
      Conc.run newLogger name description c2 [0] = some c3 ∧
      c3.callers = [Caller.returned l0, Caller.built l1] ∧
      (GetLogger c3.st name).2 = l0 ∧
      Conc.run newLogger name description c3 [1] = some c4 ∧
      c4.callers = [Caller.returned l0, Caller.returned l1] ∧
      l0 ≠ l1 ∧ l0 ≠ none ∧ l1 ≠ none ∧
      c4.st.heap.deref l0 = some (newLogger name description) ∧
      c4.st.heap.deref l1 = some (newLogger name description) ∧
      (GetLogger c4.st name).2 = l1 ∧
      ((mapKeys s0.reg.loggers).Nodup → mapCount c4.st.reg.loggers name = 1) ∧
      Conc.run newLogger name description (Conc.start s0 2) [0, 1, 0, 1, 0, 1] = some c4 := by
  rw [GetLogger_snd] at habs
  obtain ⟨hd0, hd1⟩ := deref_two s0.heap (newLogger name description)
    (newLogger name description)
  have h1 : Conc.run newLogger name description (Conc.start s0 2) [0, 1]
      = some ⟨s0, [Caller.missed, Caller.missed]⟩ := by
    simp [Conc.run, Conc.step, Conc.start, registry.GetLogger, habs]
  have h2 : Conc.run newLogger name description ⟨s0, [Caller.missed, Caller.missed]⟩ [0, 1]
      = some ⟨⟨s0.heap ++ [newLogger name description] ++ [newLogger name description],
            s0.reg⟩,
          [Caller.built (some s0.heap.length), Caller.built (some (s0.heap.length + 1))]⟩ := by
    simp [Conc.run, Conc.step, Heap.alloc]
  have h3 : Conc.run newLogger name description
      ⟨⟨s0.heap ++ [newLogger name description] ++ [newLogger name description], s0.reg⟩,
        [Caller.built (some s0.heap.length), Caller.built (some (s0.heap.length + 1))]⟩ [0]
      = some ⟨⟨s0.heap ++ [newLogger name description] ++ [newLogger name description],
            ⟨mapSet s0.reg.loggers name (some s0.heap.length)⟩⟩,
          [Caller.returned (some s0.heap.length),
            Caller.built (some (s0.heap.length + 1))]⟩ := by
    have hs := Conc.step_built newLogger name description
      ⟨⟨s0.heap ++ [newLogger name description] ++ [newLogger name description], s0.reg⟩,
        [Caller.built (some s0.heap.length), Caller.built (some (s0.heap.length + 1))]⟩
      0 (some s0.heap.length) (newLogger name description) rfl hd0
    rw [Conc.run_single, hs, hName]
    rfl
  have h4 : Conc.run newLogger name description
      ⟨⟨s0.heap ++ [newLogger name description] ++ [newLogger name description],
          ⟨mapSet s0.reg.loggers name (some s0.heap.length)⟩⟩,
        [Caller.returned (some s0.heap.length), Caller.built (some (s0.heap.length + 1))]⟩ [1]
      = some ⟨⟨s0.heap ++ [newLogger name description] ++ [newLogger name description],
            ⟨mapSet (mapSet s0.reg.loggers name (some s0.heap.length)) name
              (some (s0.heap.length + 1))⟩⟩,
          [Caller.returned (some s0.heap.length),
            Caller.returned (some (s0.heap.length + 1))]⟩ := by
    have hs := Conc.step_built newLogger name description
      ⟨⟨s0.heap ++ [newLogger name description] ++ [newLogger name description],
          ⟨mapSet s0.reg.loggers name (some s0.heap.length)⟩⟩,
        [Caller.returned (some s0.heap.length), Caller.built (some (s0.heap.length + 1))]⟩
      1 (some (s0.heap.length + 1)) (newLogger name description) rfl hd1
    rw [Conc.run_single, hs, hName]
    rfl
  refine ⟨_, _, _, _, some s0.heap.length, some (s0.heap.length + 1), h1, rfl, h2, rfl, h3, rfl,
    ?_, h4, rfl, ?_, ?_, ?_, hd0, hd1, ?_, ?_, ?_⟩
  · exact mapGet_mapSet_same _ _ _
  · simp
  · simp
  · simp
  · exact mapGet_mapSet_same _ _ _
  · intro hnd
    exact mapCount_eq_one _ _
      (mapKeys_mapSet_nodup _ _ _ (mapKeys_mapSet_nodup _ _ _ hnd)) (mem_keys_mapSet _ _ _)
  · have e : ([0, 1, 0, 1, 0, 1] : List Nat) = [0, 1] ++ ([0, 1] ++ ([0] ++ [1])) := rfl
    rw [e, Conc.run_append _ _ _ _ _ _ _ h1, Conc.run_append _ _ _ _ _ _ _ h2,
      Conc.run_append _ _ _ _ _ _ _ h3]
    exact h4

/-- Witness of C11: the race on the initial registry for the name `shared`. -/
theorem race_last_writer_wins_witness :
    ∃ c1 c2 c3 c4 l0 l1,
      Conc.run mkLogger "shared" "x" (Conc.start init 2) [0, 1] = some c1 ∧
      c1.callers = [Caller.missed, Caller.missed] ∧
      Conc.run mkLogger "shared" "x" c1 [0, 1] = some c2 ∧
      c2.callers = [Caller.built l0, Caller.built l1] ∧
      Conc.run mkLogger "shared" "x" c2 [0] = some c3 ∧
      c3.callers = [Caller.returned l0, Caller.built l1] ∧
      (GetLogger c3.st "shared").2 = l0 ∧
      Conc.run mkLogger "shared" "x" c3 [1] = some c4 ∧
      c4.callers = [Caller.returned l0, Caller.returned l1] ∧
      l0 ≠ l1 ∧ l0 ≠ none ∧ l1 ≠ none ∧
      c4.st.heap.deref l0 = some (mkLogger "shared" "x") ∧
      c4.st.heap.deref l1 = some (mkLogger "shared" "x") ∧
      (GetLogger c4.st "shared").2 = l1 ∧
      ((mapKeys init.reg.loggers).Nodup → mapCount c4.st.reg.loggers "shared" = 1) ∧
      Conc.run mkLogger "shared" "x" (Conc.start init 2) [0, 1, 0, 1, 0, 1] = some c4 :=
  race_last_writer_wins mkLogger (fun _ _ => rfl) init "shared" "x" rfl

end Log
